import Mathlib

/-!
Shallow embedding of the oner_quantize crate (src/quantize/mod.rs and
src/quantize/splits.rs): OneR supervised discretization of a single ordered
attr, paired with class labels, into labeled intervals.

Modelling conventions:
* usize is Nat.
* A Rust panic is modelled by Option: a function that can panic returns
  none exactly where the Rust code panics.
* The Rust slice expression data[start..untl] is modelled by
  (data.drop start).take (untl - start).  Where the two differ (start
  beyond untl or beyond the length) the Rust code panics; in the embedding
  those segments come out empty, and the functions that consume such a
  segment are exactly the ones whose Option result records the failure.
* The FxHashMap built by frequency_count has a deterministic but
  unspecified iteration order; it is modelled as an association list in
  first-encounter order, a fixed deterministic order standing in for the
  hash order.  Rust's max_by_key keeps the last maximal element, and the
  fold in max_by_count mirrors that.
* ord_subset_sort_by_key on fully comparable keys is a stable ascending
  sort by key; it is modelled with List.insertionSort on the first
  component, which is stable.
-/

namespace OneRQuantize

/-- The Interval data type from the crate root (src/quantize/interval.rs is
not among the provided sources; the shapes and field names are §3 of the
spec).  `lo` stands for the Rust field `from`, a reserved word in Lean. -/
inductive Interval (A C : Type) where
  | Lower (below : A) (cls : C)
  | Range (lo : A) (below : A) (cls : C)
  | Upper (lo : A) (cls : C)
  | Infinite (cls : C)
  deriving DecidableEq, Repr

variable {A C : Type}

/-- Modelled from the spec: `Interval::matches` lives in
src/quantize/interval.rs, which is not among the provided sources.  Its
coverage semantics is spec §3: Lower covers values strictly below `below`,
Range covers [from, below), Upper covers values at or above `from`,
Infinite covers the whole domain. -/
def Interval.matches [LinearOrder A] : Interval A C → A → Bool
  | .Lower below _, v => decide (v < below)
  | .Range lo below _, v => decide (lo ≤ v) && decide (v < below)
  | .Upper lo _, v => decide (lo ≤ v)
  | .Infinite _, _ => true

/-- The class label carried by an interval. -/
def Interval.cls : Interval A C → C
  | .Lower _ c => c
  | .Range _ _ c => c
  | .Upper _ c => c
  | .Infinite c => c

/-- The lower end of an interval's coverage (none = unbounded below). -/
def Interval.lowerBound : Interval A C → Option A
  | .Lower _ _ => none
  | .Range lo _ _ => some lo
  | .Upper lo _ => some lo
  | .Infinite _ => none

/-- The upper end of an interval's coverage (none = unbounded above). -/
def Interval.upperBound : Interval A C → Option A
  | .Lower below _ => some below
  | .Range _ below _ => some below
  | .Upper _ _ => none
  | .Infinite _ => none

/-- Rebuild an interval from optional bounds and a class. -/
def mkInterval : Option A → Option A → C → Interval A C
  | none, none, c => .Infinite c
  | none, some b, c => .Lower b c
  | some a, none, c => .Upper a c
  | some a, some b, c => .Range a b c

/-- Modelled from the spec: `merge_neighbours_with_same_class` lives in
src/quantize/interval.rs, which is not among the provided sources.  Its
contract is spec §4.5: collapse every maximal run of adjacent intervals
sharing a class into one interval whose coverage is the union of the run
(lower bound of the first, upper bound of the last), preserving relative
order and classes.  `mergeRun` walks the list carrying the accumulated
first interval of the current run. -/
def mergeRun [DecidableEq C] : Interval A C → List (Interval A C) → List (Interval A C)
  | acc, [] => [acc]
  | acc, i :: rest =>
    if i.cls = acc.cls then
      mergeRun (mkInterval acc.lowerBound i.upperBound acc.cls) rest
    else
      acc :: mergeRun i rest

/-- Modelled from the spec (§4.5): the merge pass over the whole list. -/
def merge_neighbours_with_same_class [DecidableEq C] :
    List (Interval A C) → List (Interval A C)
  | [] => []
  | i :: rest => mergeRun i rest

/-- One entry/increment step of frequency_count's HashMap update
(`counts.entry(t).or_insert(0); *count += 1`), on the association list. -/
def insertCount [DecidableEq C] : List (C × Nat) → C → List (C × Nat)
  | [], t => [(t, 1)]
  | (c, n) :: rest, t =>
    if c = t then (c, n + 1) :: rest else (c, n) :: insertCount rest t

/-- frequency_count (splits.rs): occurrence counts of each label, as an
association list in first-encounter order (the model of the FxHashMap). -/
def frequency_count [DecidableEq C] (ts : List C) : List (C × Nat) :=
  ts.foldl insertCount []

/-- The fold inside Rust's Iterator::max_by_key on the count column: the
running maximum is replaced whenever a later element's count is at least
as large, so ties go to the last maximal element. -/
def max_by_go : (C × Nat) → List (C × Nat) → C × Nat
  | q, [] => q
  | q, p :: rest => max_by_go (if q.2 ≤ p.2 then p else q) rest

/-- Rust's Iterator::max_by_key on the count column: none on an empty
iterator, otherwise the last element with the maximal count. -/
def max_by_count : List (C × Nat) → Option (C × Nat)
  | [] => none
  | p :: rest => some (max_by_go p rest)

/-- most_frequest_class (splits.rs): majority class of the segment
data[start..untl], none when the segment is empty. -/
def most_frequest_class [DecidableEq C] (data : List (A × C))
    (start untl : Nat) : Option C :=
  let classes := ((data.drop start).take (untl - start)).map Prod.snd
  (max_by_count (frequency_count classes)).map Prod.fst

/-- no_dominant_class (splits.rs): every class in data[start..untl]
occurs at most `small` times. -/
def no_dominant_class [DecidableEq C] (start untl small : Nat)
    (data : List (A × C)) : Bool :=
  let classes := ((data.drop start).take (untl - start)).map Prod.snd
  (frequency_count classes).all fun p => decide (p.2 ≤ small)

/-- next_split_same_class (splits.rs): the majority class of
data[start..untl] compared with the majority class of the segment from
`untl` to the next split, when there is one. -/
def next_split_same_class [DecidableEq C] (start untl : Nat)
    (data : List (A × C)) (next : Option Nat) : Bool :=
  let cls := most_frequest_class data start untl
  let next_class := next.bind fun split_idx =>
    most_frequest_class data untl split_idx
  decide (next_class = cls)

/-- trim_splits0 (splits.rs): the tail-recursive walk of the candidate
splits carrying the kept splits and the moving start index. -/
def trim_splits0 [DecidableEq C] (splits : List Nat) (small : Nat)
    (data : List (A × C)) (keep : List Nat) (start_index : Nat) : List Nat :=
  match splits with
  | [] => keep
  | head :: tail =>
    if no_dominant_class start_index head small data
        || next_split_same_class start_index head data tail.head? then
      trim_splits0 tail small data keep start_index
    else
      trim_splits0 tail small data (keep ++ [head]) head

/-- trim_splits (splits.rs). -/
def trim_splits [DecidableEq C] (splits : List Nat) (small : Nat)
    (data : List (A × C)) : List Nat :=
  trim_splits0 splits small data [] 0

/-- The closure most_frequent_class inside intervals_from_splits
(splits.rs): same computation as most_frequest_class, with the panic on an
empty segment modelled as none. -/
def most_frequent_class [DecidableEq C] (data : List (A × C))
    (start untl : Nat) : Option C :=
  let classes := ((data.drop start).take (untl - start)).map Prod.snd
  (max_by_count (frequency_count classes)).map Prod.fst

/-- The `lower` closure: Lower interval below data[index], classed by the
majority of data[0..index]. -/
def lowerInterval [DecidableEq C] (data : List (A × C)) (index : Nat) :
    Option (Interval A C) := do
  let pair ← data.get? index
  let cls ← most_frequent_class data 0 index
  pure (Interval.Lower pair.1 cls)

/-- The `upper` closure: Upper interval from data[index], classed by the
majority of data[index..len]. -/
def upperInterval [DecidableEq C] (data : List (A × C)) (index : Nat) :
    Option (Interval A C) := do
  let pair ← data.get? index
  let cls ← most_frequent_class data index data.length
  pure (Interval.Upper pair.1 cls)

/-- The `range` closure: Range interval [data[index_start], data[index_end])
classed by the majority of data[index_start..index_end]. -/
def rangeInterval [DecidableEq C] (data : List (A × C))
    (index_start index_end : Nat) : Option (Interval A C) := do
  let pstart ← data.get? index_start
  let pend ← data.get? index_end
  let cls ← most_frequent_class data index_start index_end
  pure (Interval.Range pstart.1 pend.1 cls)

/-- The push loop over consecutive split pairs in the n ≥ 2 arm of
intervals_from_splits; the pairs arrive as (curr, prev) exactly as produced
by `splits.iter().skip(1).zip(splits.iter())`. -/
def rangesOf [DecidableEq C] (data : List (A × C)) :
    List (Nat × Nat) → Option (List (Interval A C))
  | [] => some []
  | (curr, prev) :: rest => do
    let r ← rangeInterval data prev curr
    let rs ← rangesOf data rest
    pure (r :: rs)

/-- intervals_from_splits (splits.rs): build the interval list from the
trimmed splits; none where the Rust code panics. -/
def intervals_from_splits [DecidableEq C] (splits : List Nat)
    (data : List (A × C)) : Option (List (Interval A C)) :=
  match splits with
  | [] => do
    let cls ← most_frequent_class data 0 data.length
    pure [Interval.Infinite cls]
  | [s] => do
    let l ← lowerInterval data s
    let u ← upperInterval data s
    pure [l, u]
  | s0 :: s1 :: rest => do
    let l ← lowerInterval data s0
    let mids ← rangesOf data ((s1 :: rest).zip (s0 :: s1 :: rest))
    let u ← upperInterval data ((s1 :: rest).getLast (by simp))
    pure (l :: (mids ++ [u]))

/-- The split-detection loop of find_intervals (mod.rs): walk the adjacent
pairs of the sorted data with the index of the earlier element, recording
prev_index + 1 whenever the value strictly increases. -/
def find_splits_go [LinearOrder A] (prev : A × C) (rest : List (A × C))
    (prev_index : Nat) : List Nat :=
  match rest with
  | [] => []
  | cur :: rest' =>
    if prev.1 < cur.1 then
      (prev_index + 1) :: find_splits_go cur rest' (prev_index + 1)
    else
      find_splits_go cur rest' (prev_index + 1)

/-- The candidate splits of the sorted data: one index per position where
the value strictly exceeds its predecessor. -/
def find_splits [LinearOrder A] : List (A × C) → List Nat
  | [] => []
  | p :: rest => find_splits_go p rest 0

/-- find_intervals (mod.rs): the full pipeline.  Zipping truncates at the
shorter input, exactly as `attr.iter().zip(classes.iter())` does. -/
def find_intervals [LinearOrder A] [DecidableEq C] (attr : List A)
    (classes : List C) (small : Nat) : Option (List (Interval A C)) :=
  let sorted := List.insertionSort (fun p q => p.1 ≤ q.1)
    (attr.zip classes)
  let split_index := find_splits sorted
  let split_index_trimmed := trim_splits split_index small sorted
  (intervals_from_splits split_index_trimmed sorted).map
    merge_neighbours_with_same_class

/-- quantize (mod.rs): the first interval in list order that matches the
value. -/
def quantize [LinearOrder A] (intervals : List (Interval A C))
    (attribute_value : A) : Option (Interval A C) :=
  intervals.find? fun interval => interval.matches attribute_value
/-- The count recorded for a key in an association list (first entry
wins); a helper for reasoning about insertCount. -/
def getCount [DecidableEq C] : List (C × Nat) → C → Nat
  | [], _ => 0
  | (k, n) :: rest, c => if k = c then n else getCount rest c

/-- The segment data[start..until] that a majority-class query inspects,
as a pair (start, until) applied to the data. -/
def segSlice (data : List (A × C)) (p : Nat × Nat) : List (A × C) :=
  (data.drop p.1).take (p.2 - p.1)

/-- The trimming fold exactly as claim C1 words it: starting from
start_index = 0, drop a candidate head (leaving start_index unchanged)
when either every class in [start_index, head) occurs at most `small`
times, or the majority class of [start_index, head) equals the majority
class of [head, next_candidate) — the latter test being false when there
is no next candidate; otherwise keep head and continue from it.
noDominantSpec is the claim's *no-dominant-class* test, phrased directly
with List.count. -/
def noDominantSpec [DecidableEq C] (small : Nat) (seg : List C) : Bool :=
  seg.all fun c => decide (List.count c seg ≤ small)

/-- The claim's *next-split-same-class* test: true iff there is a next
candidate and the majority class of [start, head) equals the majority
class of [head, next); false when there is no next candidate. -/
def sameNextSpec [DecidableEq C] (data : List (A × C)) (start head : Nat) :
    Option Nat → Bool
  | none => false
  | some nxt => decide (most_frequest_class data start head
      = most_frequest_class data head nxt)

def trimSplitsSpecFold [DecidableEq C] (small : Nat) (data : List (A × C)) :
    List Nat → Nat → List Nat
  | [], _ => []
  | head :: tail, start_index =>
    if noDominantSpec small ((segSlice data (start_index, head)).map Prod.snd)
        || sameNextSpec data start_index head tail.head? then
      trimSplitsSpecFold small data tail start_index
    else
      head :: trimSplitsSpecFold small data tail head

/-- The interval builder's output as claim C2 words it: zero splits give
one Infinite interval classed by the overall majority; one split at i
gives Lower below data[i] and Upper from data[i]; n ≥ 2 splits give a
Lower bounded by the first split, a Range per consecutive pair and an
Upper bounded by the last split, each classed by its segment's majority.
The defaults behind getD are never exercised under the claim's
precondition of in-range splits over non-empty data.  majD is the
majority class of data[s..u] with a default for the empty segment. -/
def majD [DecidableEq C] [Inhabited C] (data : List (A × C)) (s u : Nat) : C :=
  (most_frequent_class data s u).getD default

/-- The attribute value at an index, with a default never exercised for
in-range indices; a spec-side helper for stating claim C2. -/
def valD [Inhabited A] (data : List (A × C)) (i : Nat) : A :=
  ((data.get? i).map Prod.fst).getD default

def intervalsSpecOf [DecidableEq C] [Inhabited A] [Inhabited C]
    (splits : List Nat) (data : List (A × C)) : List (Interval A C) :=
  match splits with
  | [] => [Interval.Infinite (majD data 0 data.length)]
  | [i] => [Interval.Lower (valD data i) (majD data 0 i),
            Interval.Upper (valD data i) (majD data i data.length)]
  | s0 :: s1 :: rest =>
    Interval.Lower (valD data s0) (majD data 0 s0)
      :: (((s1 :: rest).zip (s0 :: s1 :: rest)).map fun pc =>
          Interval.Range (valD data pc.2) (valD data pc.1) (majD data pc.2 pc.1))
      ++ [Interval.Upper (valD data ((s1 :: rest).getLast (by simp)))
          (majD data ((s1 :: rest).getLast (by simp)) data.length)]

/-- The (start, until) pairs of every segment whose majority class
intervals_from_splits computes, in the order the builder queries them. -/
def builderSegments (splits : List Nat) (len : Nat) : List (Nat × Nat) :=
  match splits with
  | [] => [(0, len)]
  | [s] => [(0, s), (s, len)]
  | s0 :: s1 :: rest =>
    (0, s0)
      :: (((s1 :: rest).zip (s0 :: s1 :: rest)).map fun pc => (pc.2, pc.1))
      ++ [(((s1 :: rest).getLast (by simp)), len)]


section FindLemmas

/-- Claim C3: quantize returns the first interval in list order whose
coverage contains the value (first conjunct), any returned interval is a
matching member of the list (second), nothing is returned exactly when no
interval matches (third), and on the literal list
[Lower 15 x, Range 15 20 y, Upper 20 z] the values 10, 15 and 99 map to
the x, y and z intervals (fourth). -/
theorem claim_C3 :
    (∀ (A C : Type) [LinearOrder A] (l₁ l₂ : List (Interval A C))
        (i : Interval A C) (v : A),
        (∀ j ∈ l₁, j.matches v = false) → i.matches v = true →
        quantize (l₁ ++ i :: l₂) v = some i)
    ∧ (∀ (A C : Type) [LinearOrder A] (l : List (Interval A C)) (v : A)
        (i : Interval A C),
        quantize l v = some i → i ∈ l ∧ i.matches v = true)
    ∧ (∀ (A C : Type) [LinearOrder A] (l : List (Interval A C)) (v : A),
        quantize l v = none ↔ ∀ i ∈ l, i.matches v = false)
    ∧ (quantize [Interval.Lower (15 : Int) "x", Interval.Range 15 20 "y",
          Interval.Upper 20 "z"] 10 = some (Interval.Lower 15 "x")
      ∧ quantize [Interval.Lower (15 : Int) "x", Interval.Range 15 20 "y",
          Interval.Upper 20 "z"] 15 = some (Interval.Range 15 20 "y")
      ∧ quantize [Interval.Lower (15 : Int) "x", Interval.Range 15 20 "y",
          Interval.Upper 20 "z"] 99 = some (Interval.Upper 20 "z")) := by
  refine ⟨?_, ?_, ?_, by decide, by decide, by decide⟩
  · intro A C _ l₁ l₂ i v h hm
    induction l₁ with
    | nil =>
      simp only [List.nil_append, quantize]
      exact List.find?_cons_of_pos (p := fun j => j.matches v) l₂ hm
    | cons j l₁' ih =>
      have hj : j.matches v = false := h j (by simp)
      simp only [quantize, List.cons_append]
      rw [List.find?_cons_of_neg _ (by simp [hj])]
      exact ih fun x hx => h x (by simp [hx])
  · intro A C _ l v i h
    simp only [quantize] at h
    exact ⟨List.mem_of_find?_eq_some (p := fun j => Interval.matches j v) h,
      List.find?_some (p := fun j => Interval.matches j v) h⟩
  · intro A C _ l v
    simp [quantize, List.find?_eq_none]

/-- Witness for claim C3: the first-match conjunct applied to a concrete
list whose head does not match and whose second element does. -/
theorem claim_C3_witness :
    quantize ([Interval.Lower (5 : Int) "a"] ++ Interval.Upper (5 : Int) "b" :: []) 7
      = some (Interval.Upper 5 "b") :=
  claim_C3.1 Int String [Interval.Lower 5 "a"] [] (Interval.Upper 5 "b") 7
    (by decide) (by decide)

/-- Claim C9: the golf temperature example from
Nevill-Manning, Holmes and Witten (1995), with small = 3, yields exactly
[Lower\x7bbelow: 85, class: "p"\x7d, Upper\x7bfrom: 85, class: "d"\x7d]. -/
theorem claim_C9 :
    find_intervals [(64 : Int), 65, 68, 69, 70, 71, 72, 72, 75, 75, 80, 81, 83, 85]
      ["p", "d", "p", "p", "p", "d", "p", "d", "p", "p", "d", "p", "p", "d"] 3
    = some [Interval.Lower 85 "p", Interval.Upper 85 "d"] := by decide

/-- Claim C10: find_intervals is deterministic; equal inputs give equal
interval lists, tie-breaking included. -/
theorem claim_C10 : ∀ (A C : Type) [LinearOrder A] [DecidableEq C]
    (a₁ a₂ : List A) (c₁ c₂ : List C) (s₁ s₂ : Nat),
    a₁ = a₂ → c₁ = c₂ → s₁ = s₂ →
    find_intervals a₁ c₁ s₁ = find_intervals a₂ c₂ s₂ := by
  intro A C _ _ a₁ a₂ c₁ c₂ s₁ s₂ h1 h2 h3
  subst h1; subst h2; subst h3; rfl

/-- Witness for claim C10 at a concrete input. -/
theorem claim_C10_witness :
    find_intervals [(1 : Int)] ["a"] 2 = find_intervals [(1 : Int)] ["a"] 2 :=
  claim_C10 Int String [1] [1] ["a"] ["a"] 2 2 rfl rfl rfl

/-- Counterexample to claim C5 as stated: on empty input sequences the Rust
code panics inside most_frequent_class (modelled as none), so no interval
list at all is returned, let alone a non-empty one. -/
theorem claim_C5_counterexample :
    find_intervals ([] : List Int) ([] : List String) 3 = none := by decide

/-- Counterexample to claim C8 as stated: for the unequal-length inputs
[1] and [], the zip is empty and the Rust code panics inside
most_frequent_class (modelled as none), so an error is raised. -/
theorem claim_C8_counterexample :
    find_intervals [(1 : Int)] ([] : List String) 0 = none := by decide

end FindLemmas

section FrequencyLemmas

variable [DecidableEq C]

theorem getCount_insertCount (assoc : List (C × Nat)) (t c : C) :
    getCount (insertCount assoc t) c
      = getCount assoc c + if c = t then 1 else 0 := by
  induction assoc with
  | nil =>
    by_cases h : t = c
    · subst h; simp [insertCount, getCount]
    · have h2 : ¬c = t := fun hc => h hc.symm
      simp [insertCount, getCount, h, h2]
  | cons p rest ih =>
    obtain ⟨k, n⟩ := p
    by_cases hkt : k = t
    · subst hkt
      by_cases hkc : k = c
      · subst hkc; simp [insertCount, getCount]
      · have h2 : ¬c = k := fun hc => hkc hc.symm
        simp [insertCount, getCount, hkc, h2]
    · by_cases hkc : k = c
      · have h3 : ¬c = t := fun h => hkt (hkc.trans h)
        simp [insertCount, getCount, hkt, hkc, h3]
      · simp [insertCount, getCount, hkt, hkc, ih]

theorem mem_keys_insertCount (assoc : List (C × Nat)) (t c : C) :
    c ∈ (insertCount assoc t).map Prod.fst
      ↔ c = t ∨ c ∈ assoc.map Prod.fst := by
  induction assoc with
  | nil => simp [insertCount]
  | cons p rest ih =>
    obtain ⟨k, n⟩ := p
    by_cases hkt : k = t
    · subst hkt
      simp only [insertCount, eq_self_iff_true, if_true, List.map_cons,
        List.mem_cons]
      tauto
    · simp only [insertCount, if_neg hkt, List.map_cons, List.mem_cons, ih]
      tauto

theorem nodup_keys_insertCount (assoc : List (C × Nat)) (t : C)
    (h : (assoc.map Prod.fst).Nodup) :
    ((insertCount assoc t).map Prod.fst).Nodup := by
  induction assoc with
  | nil => simp [insertCount]
  | cons p rest ih =>
    obtain ⟨k, n⟩ := p
    simp only [List.map_cons, List.nodup_cons] at h
    by_cases hkt : k = t
    · subst hkt; simpa [insertCount] using h
    · simp only [insertCount, hkt, if_false, List.map_cons, List.nodup_cons]
      refine ⟨fun hk => ?_, ih h.2⟩
      rcases (mem_keys_insertCount rest t k).mp hk with h1 | h1
      · exact hkt h1
      · exact h.1 h1

theorem getCount_eq_of_mem_nodup {assoc : List (C × Nat)} {c : C} {n : Nat}
    (hnd : (assoc.map Prod.fst).Nodup) (hmem : (c, n) ∈ assoc) :
    getCount assoc c = n := by
  induction assoc with
  | nil => simp at hmem
  | cons p rest ih =>
    obtain ⟨k, m⟩ := p
    simp only [List.map_cons, List.nodup_cons] at hnd
    rcases List.mem_cons.mp hmem with h | h
    · rw [Prod.ext_iff] at h
      obtain ⟨h1, h2⟩ := h
      subst h1; subst h2
      simp [getCount]
    · by_cases hkc : k = c
      · subst hkc
        exact absurd (List.mem_map_of_mem Prod.fst h) hnd.1
      · simp [getCount, hkc, ih hnd.2 h]

theorem mem_of_key {assoc : List (C × Nat)} {c : C}
    (h : c ∈ assoc.map Prod.fst) : (c, getCount assoc c) ∈ assoc := by
  induction assoc with
  | nil => simp at h
  | cons p rest ih =>
    obtain ⟨k, m⟩ := p
    by_cases hkc : k = c
    · subst hkc; simp [getCount]
    · simp only [List.map_cons, List.mem_cons] at h
      rcases h with h | h
      · exact absurd h.symm hkc
      · simp [getCount, hkc, ih h]

theorem frequency_count_snoc (l : List C) (t : C) :
    frequency_count (l ++ [t]) = insertCount (frequency_count l) t := by
  simp [frequency_count, List.foldl_append]

theorem getCount_frequency_count (l : List C) (c : C) :
    getCount (frequency_count l) c = List.count c l := by
  induction l using List.reverseRecOn with
  | nil => simp [frequency_count, getCount]
  | append_singleton l t ih =>
    rw [frequency_count_snoc, getCount_insertCount, ih, List.count_append]
    by_cases h : c = t <;> simp [h, List.count_singleton]

theorem mem_keys_frequency_count (l : List C) (c : C) :
    c ∈ (frequency_count l).map Prod.fst ↔ c ∈ l := by
  induction l using List.reverseRecOn with
  | nil => simp [frequency_count]
  | append_singleton l t ih =>
    rw [frequency_count_snoc, mem_keys_insertCount, ih]
    simp only [List.mem_append, List.mem_singleton]
    tauto

theorem nodup_keys_frequency_count (l : List C) :
    ((frequency_count l).map Prod.fst).Nodup := by
  induction l using List.reverseRecOn with
  | nil => simp [frequency_count]
  | append_singleton l t ih =>
    rw [frequency_count_snoc]
    exact nodup_keys_insertCount _ t ih

theorem frequency_count_eq_nil_iff (l : List C) :
    frequency_count l = [] ↔ l = [] := by
  constructor
  · intro h
    cases l with
    | nil => rfl
    | cons c l' =>
      have : c ∈ (frequency_count (c :: l')).map Prod.fst :=
        (mem_keys_frequency_count _ c).mpr (by simp)
      rw [h] at this
      simp at this
  · rintro rfl; rfl

theorem mem_frequency_count {l : List C} {p : C × Nat} :
    p ∈ frequency_count l ↔ p.1 ∈ l ∧ p.2 = List.count p.1 l := by
  constructor
  · intro h
    refine ⟨(mem_keys_frequency_count l p.1).mp (List.mem_map_of_mem Prod.fst h), ?_⟩
    have := getCount_eq_of_mem_nodup (nodup_keys_frequency_count l)
      (show (p.1, p.2) ∈ frequency_count l from h)
    rw [← this, getCount_frequency_count]
  · rintro ⟨h1, h2⟩
    have hk : p.1 ∈ (frequency_count l).map Prod.fst :=
      (mem_keys_frequency_count l p.1).mpr h1
    have := mem_of_key hk
    rwa [getCount_frequency_count, ← h2,
      show (p.1, p.2) = p from rfl] at this

theorem no_dominant_class_iff (start untl small : Nat) (data : List (A × C)) :
    no_dominant_class start untl small data = true ↔
      ∀ c ∈ (segSlice data (start, untl)).map Prod.snd,
        List.count c ((segSlice data (start, untl)).map Prod.snd) ≤ small := by
  simp only [no_dominant_class, segSlice, List.all_eq_true]
  constructor
  · intro h c hc
    have hmem : (c, List.count c (((data.drop start).take (untl - start)).map Prod.snd))
        ∈ frequency_count (((data.drop start).take (untl - start)).map Prod.snd) :=
      mem_frequency_count.mpr ⟨hc, rfl⟩
    simpa using h _ hmem
  · intro h p hp
    obtain ⟨h1, h2⟩ := mem_frequency_count.mp hp
    simpa [h2] using h p.1 h1

end FrequencyLemmas

section MajorityLemmas

variable [DecidableEq C]

theorem max_by_count_eq_none_iff (l : List (C × Nat)) :
    max_by_count l = none ↔ l = [] := by
  cases l <;> simp [max_by_count]

theorem most_frequest_eq_most_frequent :
    (most_frequest_class : List (A × C) → Nat → Nat → Option C)
      = most_frequent_class := rfl

theorem segSlice_eq_nil_iff (data : List (A × C)) (s u : Nat) :
    segSlice data (s, u) = [] ↔ data.length ≤ s ∨ u ≤ s := by
  simp only [segSlice, List.take_eq_nil_iff, List.drop_eq_nil_iff,
    Nat.sub_eq_zero_iff_le]
  tauto

theorem most_frequent_class_eq_none_iff (data : List (A × C)) (s u : Nat) :
    most_frequent_class data s u = none ↔ segSlice data (s, u) = [] := by
  simp [most_frequent_class, Option.map_eq_none', max_by_count_eq_none_iff,
    frequency_count_eq_nil_iff, List.map_eq_nil_iff, segSlice]

theorem most_frequent_class_isSome (data : List (A × C)) {s u : Nat}
    (h : segSlice data (s, u) ≠ []) :
    ∃ c, most_frequent_class data s u = some c := by
  rw [← Option.ne_none_iff_exists']
  intro hn
  exact h ((most_frequent_class_eq_none_iff data s u).mp hn)

theorem frequency_count_const {l : List C} {c0 : C} (hne : l ≠ [])
    (hall : ∀ x ∈ l, x = c0) : frequency_count l = [(c0, l.length)] := by
  induction l using List.reverseRecOn with
  | nil => cases hne rfl
  | append_singleton l t ih =>
    have ht : t = c0 := hall t (by simp)
    subst ht
    rcases eq_or_ne l [] with rfl | hl
    · simp [frequency_count, insertCount]
    · rw [frequency_count_snoc, ih hl fun x hx => hall x (by simp [hx])]
      simp [insertCount]

theorem most_frequent_class_const {data : List (A × C)} {c0 : C} {s u : Nat}
    (hne : segSlice data (s, u) ≠ [])
    (hall : ∀ p ∈ segSlice data (s, u), p.2 = c0) :
    most_frequent_class data s u = some c0 := by
  have hcls : ∀ x ∈ (segSlice data (s, u)).map Prod.snd, x = c0 := by
    intro x hx
    obtain ⟨p, hp, rfl⟩ := List.mem_map.mp hx
    exact hall p hp
  have hnecls : (segSlice data (s, u)).map Prod.snd ≠ [] :=
    fun h => hne (List.map_eq_nil_iff.mp h)
  have : ((data.drop s).take (u - s)).map Prod.snd
      = (segSlice data (s, u)).map Prod.snd := rfl
  rw [most_frequent_class, this, frequency_count_const hnecls hcls]
  simp [max_by_count, max_by_go]

end MajorityLemmas

section BuilderLemmas

variable [DecidableEq C]

theorem lowerInterval_eq_some {data : List (A × C)} {index : Nat} {p : A × C}
    {c : C} (hg : data.get? index = some p)
    (hm : most_frequent_class data 0 index = some c) :
    lowerInterval data index = some (Interval.Lower p.1 c) := by
  rw [List.get?_eq_getElem?] at hg
  simp [lowerInterval, hg, hm]

theorem upperInterval_eq_some {data : List (A × C)} {index : Nat} {p : A × C}
    {c : C} (hg : data.get? index = some p)
    (hm : most_frequent_class data index data.length = some c) :
    upperInterval data index = some (Interval.Upper p.1 c) := by
  rw [List.get?_eq_getElem?] at hg
  simp [upperInterval, hg, hm]

theorem rangeInterval_eq_some {data : List (A × C)} {i j : Nat} {p q : A × C}
    {c : C} (hgi : data.get? i = some p) (hgj : data.get? j = some q)
    (hm : most_frequent_class data i j = some c) :
    rangeInterval data i j = some (Interval.Range p.1 q.1 c) := by
  rw [List.get?_eq_getElem?] at hgi
  rw [List.get?_eq_getElem?] at hgj
  simp [rangeInterval, hgi, hgj, hm]

theorem lowerInterval_eq_none {data : List (A × C)} {index : Nat}
    (hm : most_frequent_class data 0 index = none) :
    lowerInterval data index = none := by
  cases hg : data.get? index <;> simp [lowerInterval, hg, hm]

theorem upperInterval_eq_none {data : List (A × C)} {index : Nat}
    (hm : most_frequent_class data index data.length = none) :
    upperInterval data index = none := by
  cases hg : data.get? index <;> simp [upperInterval, hg, hm]

theorem rangeInterval_eq_none {data : List (A × C)} {i j : Nat}
    (hm : most_frequent_class data i j = none) :
    rangeInterval data i j = none := by
  cases hgi : data.get? i <;> cases hgj : data.get? j <;>
    simp [rangeInterval, hgi, hgj, hm]

theorem valD_eq [Inhabited A] {data : List (A × C)} {i : Nat} {p : A × C}
    (hg : data.get? i = some p) : valD data i = p.1 := by
  rw [valD, hg]
  rfl

theorem majD_eq [Inhabited C] {data : List (A × C)} {s u : Nat} {c : C}
    (hm : most_frequent_class data s u = some c) : majD data s u = c := by
  simp [majD, hm]

theorem rangesOf_eq_map [Inhabited A] [Inhabited C] {data : List (A × C)}
    (pairs : List (Nat × Nat))
    (h : ∀ pc ∈ pairs, segSlice data (pc.2, pc.1) ≠ [] ∧ pc.1 < data.length) :
    rangesOf data pairs = some (pairs.map fun pc =>
      Interval.Range (valD data pc.2) (valD data pc.1) (majD data pc.2 pc.1)) := by
  induction pairs with
  | nil => rfl
  | cons pc rest ih =>
    obtain ⟨curr, prev⟩ := pc
    obtain ⟨hs, hc⟩ := h (curr, prev) (by simp)
    have h2 : ¬(data.length ≤ prev ∨ curr ≤ prev) :=
      fun hh => hs ((segSlice_eq_nil_iff data prev curr).mpr hh)
    push_neg at h2
    obtain ⟨c, hm⟩ := most_frequent_class_isSome data hs
    obtain ⟨p, hp⟩ : ∃ p, data.get? prev = some p := by
      rw [List.get?_eq_get h2.1]; exact ⟨_, rfl⟩
    obtain ⟨q, hq⟩ : ∃ q, data.get? curr = some q := by
      rw [List.get?_eq_get hc]; exact ⟨_, rfl⟩
    simp [rangesOf, rangeInterval_eq_some hp hq hm,
      ih fun x hx => h x (by simp [hx]),
      valD_eq hp, valD_eq hq, majD_eq hm]

theorem rangesOf_eq_none {data : List (A × C)} {pairs : List (Nat × Nat)}
    {pc : Nat × Nat} (hmem : pc ∈ pairs)
    (hn : rangeInterval data pc.2 pc.1 = none) :
    rangesOf data pairs = none := by
  induction pairs with
  | nil => simp at hmem
  | cons q rest ih =>
    obtain ⟨qc, qp⟩ := q
    rcases List.mem_cons.mp hmem with rfl | hmem'
    · simp [rangesOf, hn]
    · cases hr : rangeInterval data qp qc <;> simp [rangesOf, hr, ih hmem']

theorem mem_starts_aux :
    ∀ (rest : List Nat) (s0 s1 x : Nat), x ∈ s1 :: rest →
      (∃ u, (x, u) ∈ ((s1 :: rest).zip (s0 :: s1 :: rest)).map
          fun pc => (pc.2, pc.1))
      ∨ x = (s1 :: rest).getLast (by simp) := by
  intro rest
  induction rest with
  | nil =>
    intro s0 s1 x hx
    right
    simpa using hx
  | cons s2 rest' ih =>
    intro s0 s1 x hx
    rcases List.mem_cons.mp hx with rfl | hx'
    · left
      refine ⟨s2, ?_⟩
      rw [List.zip_cons_cons, List.map_cons, List.zip_cons_cons, List.map_cons]
      exact List.mem_cons_of_mem _ (List.mem_cons_self _ _)
    · rcases ih s1 s2 x hx' with ⟨u, hu⟩ | hlast
      · left
        refine ⟨u, ?_⟩
        rw [List.zip_cons_cons, List.map_cons]
        exact List.mem_cons_of_mem _ hu
      · right
        rw [List.getLast_cons]
        exact hlast

theorem mid_subset_segments {s0 s1 : Nat} {rest : List Nat} {len : Nat}
    {pr : Nat × Nat}
    (h : pr ∈ ((s1 :: rest).zip (s0 :: s1 :: rest)).map fun pc => (pc.2, pc.1)) :
    pr ∈ builderSegments (s0 :: s1 :: rest) len := by
  simp only [builderSegments, List.mem_cons, List.mem_append]
  tauto

theorem last_mem_segments (s0 s1 : Nat) (rest : List Nat) (len : Nat) :
    ((s1 :: rest).getLast (by simp), len) ∈ builderSegments (s0 :: s1 :: rest) len := by
  simp [builderSegments]

theorem head_mem_segments (s0 s1 : Nat) (rest : List Nat) (len : Nat) :
    ((0 : Nat), s0) ∈ builderSegments (s0 :: s1 :: rest) len := by
  simp [builderSegments]

theorem splits_lt_len_of_segments {data : List (A × C)} {s0 s1 : Nat}
    {rest : List Nat}
    (h : ∀ p ∈ builderSegments (s0 :: s1 :: rest) data.length,
      segSlice data p ≠ []) :
    ∀ x ∈ s0 :: s1 :: rest, x < data.length := by
  have key : ∀ a b : Nat, segSlice data (a, b) ≠ [] → a < data.length := by
    intro a b hab
    by_contra hge
    exact hab ((segSlice_eq_nil_iff data a b).mpr (Or.inl (Nat.le_of_not_lt hge)))
  intro x hx
  rcases List.mem_cons.mp hx with rfl | hx'
  · have hm : ((x : Nat), s1) ∈ ((s1 :: rest).zip (x :: s1 :: rest)).map
        fun pc => (pc.2, pc.1) := by
      rw [List.zip_cons_cons, List.map_cons]
      exact List.mem_cons_self _ _
    exact key x s1 (h _ (mid_subset_segments hm))
  · rcases mem_starts_aux rest s0 s1 x hx' with ⟨u, hu⟩ | hlast
    · exact key x u (h _ (mid_subset_segments hu))
    · subst hlast
      exact key _ _ (h _ (last_mem_segments s0 s1 rest data.length))

theorem intervals_from_splits_eq_spec [Inhabited A] [Inhabited C]
    (splits : List Nat) (data : List (A × C))
    (h : ∀ p ∈ builderSegments splits data.length, segSlice data p ≠ []) :
    intervals_from_splits splits data = some (intervalsSpecOf splits data) := by
  match splits with
  | [] =>
    obtain ⟨c, hc⟩ := most_frequent_class_isSome data
      (h (0, data.length) (by simp [builderSegments]))
    simp [intervals_from_splits, intervalsSpecOf, hc, majD_eq hc]
  | [s] =>
    have h1 := h (0, s) (by simp [builderSegments])
    have h2 := h (s, data.length) (by simp [builderSegments])
    have hs : s < data.length := by
      by_contra hge
      exact h2 ((segSlice_eq_nil_iff data s data.length).mpr
        (Or.inl (Nat.le_of_not_lt hge)))
    obtain ⟨p, hp⟩ : ∃ p, data.get? s = some p := by
      rw [List.get?_eq_get hs]; exact ⟨_, rfl⟩
    obtain ⟨c1, hc1⟩ := most_frequent_class_isSome data h1
    obtain ⟨c2, hc2⟩ := most_frequent_class_isSome data h2
    simp [intervals_from_splits, intervalsSpecOf,
      lowerInterval_eq_some hp hc1, upperInterval_eq_some hp hc2,
      valD_eq hp, majD_eq hc1, majD_eq hc2]
  | s0 :: s1 :: rest =>
    have hlt := splits_lt_len_of_segments h
    obtain ⟨c1, hc1⟩ := most_frequent_class_isSome data
      (h (0, s0) (head_mem_segments s0 s1 rest data.length))
    have hs0 : s0 < data.length := hlt s0 (by simp)
    obtain ⟨p0, hp0⟩ : ∃ p, data.get? s0 = some p := by
      rw [List.get?_eq_get hs0]; exact ⟨_, rfl⟩
    have hpairs : ∀ pc ∈ (s1 :: rest).zip (s0 :: s1 :: rest),
        segSlice data (pc.2, pc.1) ≠ [] ∧ pc.1 < data.length := by
      intro pc hpc
      refine ⟨h _ (mid_subset_segments (List.mem_map_of_mem _ hpc)), ?_⟩
      exact hlt pc.1 (List.mem_cons_of_mem _ (List.of_mem_zip hpc).1)
    have hranges := rangesOf_eq_map ((s1 :: rest).zip (s0 :: s1 :: rest)) hpairs
    have hl : (s1 :: rest).getLast (by simp) < data.length :=
      hlt _ (List.mem_cons_of_mem _ (List.getLast_mem (by simp)))
    obtain ⟨c2, hc2⟩ := most_frequent_class_isSome data
      (h _ (last_mem_segments s0 s1 rest data.length))
    obtain ⟨pl, hpl⟩ : ∃ p, data.get? ((s1 :: rest).getLast (by simp)) = some p := by
      rw [List.get?_eq_get hl]; exact ⟨_, rfl⟩
    simp only [intervals_from_splits, intervalsSpecOf,
      lowerInterval_eq_some hp0 hc1, hranges, upperInterval_eq_some hpl hc2,
      Option.bind_eq_bind, Option.some_bind, Option.pure_def,
      List.cons_append, valD_eq hp0, majD_eq hc1, valD_eq hpl, majD_eq hc2]

theorem intervals_from_splits_isSome_of_segments {splits : List Nat}
    {data : List (A × C)}
    (h : ∀ p ∈ builderSegments splits data.length, segSlice data p ≠ []) :
    ∃ l, intervals_from_splits splits data = some l := by
  have hdata : data ≠ [] := by
    have h0 : ∃ u, ((0 : Nat), u) ∈ builderSegments splits data.length := by
      match splits with
      | [] => exact ⟨data.length, by simp [builderSegments]⟩
      | [s] => exact ⟨s, by simp [builderSegments]⟩
      | s0 :: s1 :: rest => exact ⟨s0, head_mem_segments s0 s1 rest data.length⟩
    obtain ⟨u, hu⟩ := h0
    intro hnil
    exact h _ hu (by subst hnil; simp [segSlice])
  obtain ⟨pair, _⟩ := List.exists_mem_of_ne_nil data hdata
  haveI : Inhabited A := ⟨pair.1⟩
  haveI : Inhabited C := ⟨pair.2⟩
  exact ⟨_, intervals_from_splits_eq_spec splits data h⟩

theorem intervals_from_splits_eq_none_of_empty {splits : List Nat}
    {data : List (A × C)} {p : Nat × Nat}
    (hmem : p ∈ builderSegments splits data.length)
    (hp : segSlice data p = []) :
    intervals_from_splits splits data = none := by
  have hm : most_frequent_class data p.1 p.2 = none :=
    (most_frequent_class_eq_none_iff data p.1 p.2).mpr hp
  match splits with
  | [] =>
    simp only [builderSegments, List.mem_singleton] at hmem
    subst hmem
    simp [intervals_from_splits, hm]
  | [s] =>
    simp only [builderSegments, List.mem_cons, List.mem_singleton,
      List.not_mem_nil, or_false] at hmem
    rcases hmem with rfl | rfl
    · simp [intervals_from_splits, lowerInterval_eq_none hm]
    · cases hl : lowerInterval data s <;>
        simp [intervals_from_splits, hl, upperInterval_eq_none hm]
  | s0 :: s1 :: rest =>
    simp only [builderSegments, List.mem_cons, List.mem_append,
      List.mem_singleton, List.not_mem_nil, or_false] at hmem
    rcases hmem with (rfl | hmid) | rfl
    · simp [intervals_from_splits, lowerInterval_eq_none hm]
    · obtain ⟨pc, hpc, rfl⟩ := List.mem_map.mp hmid
      have hr : rangesOf data ((s1 :: rest).zip (s0 :: s1 :: rest)) = none :=
        rangesOf_eq_none hpc (rangeInterval_eq_none hm)
      cases hl : lowerInterval data s0 <;>
        simp only [intervals_from_splits, hl, hr, Option.bind_eq_bind,
          Option.none_bind, Option.some_bind]
    · cases hl : lowerInterval data s0 <;>
        cases hr : rangesOf data ((s1 :: rest).zip (s0 :: s1 :: rest)) <;>
        simp only [intervals_from_splits, hl, hr, upperInterval_eq_none hm,
          Option.bind_eq_bind, Option.none_bind, Option.some_bind]

theorem chain'_zip_tail :
    ∀ l : List Nat, List.Chain' (· < ·) l →
      ∀ pc ∈ l.tail.zip l, pc.2 < pc.1 := by
  intro l
  induction l with
  | nil => intro _ pc hpc; simp at hpc
  | cons a rest ih =>
    intro hch pc hpc
    cases rest with
    | nil => simp at hpc
    | cons b r =>
      rw [List.tail_cons, List.zip_cons_cons] at hpc
      rcases List.mem_cons.mp hpc with rfl | hpc'
      · exact (List.chain'_cons.mp hch).1
      · exact ih hch.tail pc (by rw [List.tail_cons]; exact hpc')

theorem segments_valid {data : List (A × C)} {splits : List Nat}
    (hch : List.Chain' (· < ·) splits)
    (hb : ∀ s ∈ splits, 0 < s ∧ s < data.length)
    (hlen : data ≠ []) :
    ∀ p ∈ builderSegments splits data.length, segSlice data p ≠ [] := by
  have hlen' : 0 < data.length := List.length_pos.mpr hlen
  intro p hp
  rw [Ne, segSlice_eq_nil_iff]
  push_neg
  rcases splits with _ | ⟨s, _ | ⟨s1, rest⟩⟩
  · simp only [builderSegments, List.mem_singleton] at hp
    subst hp
    exact ⟨hlen', hlen'⟩
  · simp only [builderSegments, List.mem_cons, List.mem_singleton,
      List.not_mem_nil, or_false] at hp
    rcases hp with rfl | rfl
    · exact ⟨hlen', (hb s (by simp)).1⟩
    · exact ⟨(hb s (by simp)).2, (hb s (by simp)).2⟩
  · simp only [builderSegments, List.mem_cons, List.mem_append,
      List.mem_singleton, List.not_mem_nil, or_false] at hp
    rcases hp with (rfl | hmid) | rfl
    · exact ⟨hlen', (hb s (by simp)).1⟩
    · obtain ⟨pc, hpc, rfl⟩ := List.mem_map.mp hmid
      refine ⟨(hb pc.2 (List.of_mem_zip hpc).2).2, ?_⟩
      exact chain'_zip_tail (s :: s1 :: rest) hch pc
        (by rw [List.tail_cons]; exact hpc)
    · refine ⟨(hb _ (List.mem_cons_of_mem _ (List.getLast_mem (by simp)))).2,
        (hb _ (List.mem_cons_of_mem _ (List.getLast_mem (by simp)))).2⟩

end BuilderLemmas

section BuilderClaims

/-- Claim C2: for every non-empty sorted sequence and ascending in-range
split list, the interval builder returns exactly the described shapes —
zero splits give one Infinite interval classed by the overall majority;
one split at i gives Lower below data[i] and Upper from data[i]; n ≥ 2
splits give a Lower for the first split, a Range per consecutive pair and
an Upper for the last split — each tagged with its segment's majority
class (the three cases being the three arms of intervalsSpecOf). -/
theorem claim_C2 : ∀ (A C : Type) [DecidableEq C] [Inhabited A] [Inhabited C]
    (splits : List Nat) (data : List (A × C)),
    data ≠ [] → List.Chain' (· < ·) splits →
    (∀ s ∈ splits, 0 < s ∧ s < data.length) →
    intervals_from_splits splits data = some (intervalsSpecOf splits data) := by
  intro A C _ _ _ splits data hne hch hb
  exact intervals_from_splits_eq_spec splits data (segments_valid hch hb hne)

/-- Witness for claim C2 at one split over two data points. -/
theorem claim_C2_witness :
    intervals_from_splits [1] [((1 : Int), "a"), (2, "b")]
      = some (intervalsSpecOf [1] [((1 : Int), "a"), (2, "b")]) :=
  claim_C2 Int String [1] [((1 : Int), "a"), (2, "b")]
    (by decide) (List.chain'_singleton 1) (by decide)

/-- Claim C6: the interval builder fails exactly when one of the segments
whose majority class it computes is empty (the panic modelled as none),
and under the precondition of strictly ascending splits strictly between
0 and the data length over non-empty data this failure is unreachable. -/
theorem claim_C6 : ∀ (A C : Type) [DecidableEq C]
    (splits : List Nat) (data : List (A × C)),
    (intervals_from_splits splits data = none
      ↔ ∃ p ∈ builderSegments splits data.length, segSlice data p = [])
    ∧ (List.Chain' (· < ·) splits → (∀ s ∈ splits, 0 < s ∧ s < data.length) →
        data ≠ [] → (intervals_from_splits splits data).isSome) := by
  intro A C _ splits data
  constructor
  · constructor
    · intro hnone
      by_contra hno
      push_neg at hno
      obtain ⟨l, hl⟩ := intervals_from_splits_isSome_of_segments hno
      rw [hl] at hnone
      cases hnone
    · rintro ⟨p, hp, hempty⟩
      exact intervals_from_splits_eq_none_of_empty hp hempty
  · intro hch hb hne
    obtain ⟨l, hl⟩ :=
      intervals_from_splits_isSome_of_segments (segments_valid hch hb hne)
    rw [hl]
    rfl

/-- Witness for claim C6: the unreachability conjunct at a concrete valid
input. -/
theorem claim_C6_witness :
    (intervals_from_splits [1] [((3 : Int), "x"), (4, "y")]).isSome :=
  (claim_C6 Int String [1] [((3 : Int), "x"), (4, "y")]).2
    (List.chain'_singleton 1) (by decide) (by decide)

end BuilderClaims

section SplitDetectorLemmas

theorem find_splits_go_bounds [LinearOrder A] :
    ∀ (rest : List (A × C)) (p : A × C) (n i : Nat),
      i ∈ find_splits_go p rest n → n + 1 ≤ i ∧ i ≤ n + rest.length := by
  intro rest
  induction rest with
  | nil => intro p n i hi; simp [find_splits_go] at hi
  | cons q rest' ih =>
    intro p n i hi
    simp only [find_splits_go] at hi
    have hlen : (q :: rest').length = rest'.length + 1 := rfl
    by_cases h : p.1 < q.1
    · rw [if_pos h] at hi
      rcases List.mem_cons.mp hi with rfl | hi'
      · rw [hlen]; omega
      · have h2 := ih q (n + 1) i hi'
        rw [hlen]; omega
    · rw [if_neg h] at hi
      have h2 := ih q (n + 1) i hi
      rw [hlen]; omega

theorem find_splits_go_chain [LinearOrder A] :
    ∀ (rest : List (A × C)) (p : A × C) (n : Nat),
      List.Chain' (· < ·) (find_splits_go p rest n) := by
  intro rest
  induction rest with
  | nil => intro p n; simp [find_splits_go]
  | cons q rest' ih =>
    intro p n
    simp only [find_splits_go]
    by_cases h : p.1 < q.1
    · rw [if_pos h, List.chain'_cons']
      refine ⟨?_, ih q (n + 1)⟩
      intro y hy
      have hmem : y ∈ find_splits_go q rest' (n + 1) := by
        cases hh : find_splits_go q rest' (n + 1) with
        | nil => rw [hh] at hy; simp at hy
        | cons a l =>
          rw [hh] at hy
          simp only [List.head?_cons, Option.mem_def, Option.some.injEq] at hy
          subst hy
          exact List.mem_cons_self _ _
      have := find_splits_go_bounds rest' q (n + 1) y hmem
      omega
    · rw [if_neg h]
      exact ih q (n + 1)

theorem find_splits_chain [LinearOrder A] (data : List (A × C)) :
    List.Chain' (· < ·) (find_splits data) := by
  cases data with
  | nil => simp [find_splits]
  | cons p rest => exact find_splits_go_chain rest p 0

theorem find_splits_bounds [LinearOrder A] {data : List (A × C)} :
    ∀ i ∈ find_splits data, 1 ≤ i ∧ i < data.length := by
  cases data with
  | nil => intro i hi; simp [find_splits] at hi
  | cons p rest =>
    intro i hi
    have := find_splits_go_bounds rest p 0 i hi
    simp only [List.length_cons]
    omega

theorem find_splits_go_mem [LinearOrder A] :
    ∀ (rest : List (A × C)) (p : A × C) (n i : Nat),
      i ∈ find_splits_go p rest n ↔
        (n + 1 ≤ i ∧ ∃ a b, ((p :: rest).map Prod.fst).get? (i - n - 1) = some a
          ∧ ((p :: rest).map Prod.fst).get? (i - n) = some b ∧ a < b) := by
  intro rest
  induction rest with
  | nil =>
    intro p n i
    simp only [find_splits_go, List.not_mem_nil, false_iff, not_and]
    intro h1
    rintro ⟨a, b, ha, hb, hab⟩
    have hnone : ((p :: ([] : List (A × C))).map Prod.fst).get? (i - n) = none := by
      rw [List.get?_eq_none]
      simp only [List.map_cons, List.map_nil, List.length_cons, List.length_nil]
      omega
    rw [hnone] at hb
    cases hb
  | cons q rest' ih =>
    intro p n i
    constructor
    · intro hi
      simp only [find_splits_go] at hi
      by_cases h : p.1 < q.1
      · rw [if_pos h] at hi
        rcases List.mem_cons.mp hi with rfl | hi'
        · refine ⟨by omega, p.1, q.1, ?_, ?_, h⟩
          · rw [show n + 1 - n - 1 = 0 from by omega]
            rfl
          · rw [show n + 1 - n = 1 from by omega]
            rfl
        · obtain ⟨h1, a, b, ha, hb, hab⟩ := (ih q (n + 1) i).mp hi'
          refine ⟨by omega, a, b, ?_, ?_, hab⟩
          · rw [show i - n - 1 = (i - (n + 1) - 1) + 1 from by omega,
              List.map_cons, List.get?_cons_succ]
            exact ha
          · rw [show i - n = (i - (n + 1)) + 1 from by omega,
              List.map_cons, List.get?_cons_succ]
            exact hb
      · rw [if_neg h] at hi
        obtain ⟨h1, a, b, ha, hb, hab⟩ := (ih q (n + 1) i).mp hi
        refine ⟨by omega, a, b, ?_, ?_, hab⟩
        · rw [show i - n - 1 = (i - (n + 1) - 1) + 1 from by omega,
            List.map_cons, List.get?_cons_succ]
          exact ha
        · rw [show i - n = (i - (n + 1)) + 1 from by omega,
            List.map_cons, List.get?_cons_succ]
          exact hb
    · rintro ⟨h1, a, b, ha, hb, hab⟩
      simp only [find_splits_go]
      by_cases hi : i = n + 1
      · subst hi
        rw [show n + 1 - n - 1 = 0 from by omega] at ha
        rw [show n + 1 - n = 1 from by omega] at hb
        simp only [List.map_cons, List.get?_cons_succ, List.get?_cons_zero,
          Option.some.injEq] at ha hb
        subst ha
        subst hb
        rw [if_pos hab]
        exact List.mem_cons_self _ _
      · have hi' : i ∈ find_splits_go q rest' (n + 1) := by
          refine (ih q (n + 1) i).mpr ⟨by omega, a, b, ?_, ?_, hab⟩
          · rw [show i - n - 1 = (i - (n + 1) - 1) + 1 from by omega,
              List.map_cons, List.get?_cons_succ] at ha
            exact ha
          · rw [show i - n = (i - (n + 1)) + 1 from by omega,
              List.map_cons, List.get?_cons_succ] at hb
            exact hb
        by_cases h : p.1 < q.1
        · rw [if_pos h]
          exact List.mem_cons_of_mem _ hi'
        · rw [if_neg h]
          exact hi'

theorem find_splits_mem [LinearOrder A] (data : List (A × C)) (i : Nat) :
    i ∈ find_splits data ↔
      (1 ≤ i ∧ ∃ a b, (data.map Prod.fst).get? (i - 1) = some a
        ∧ (data.map Prod.fst).get? i = some b ∧ a < b) := by
  cases data with
  | nil =>
    simp only [find_splits, List.not_mem_nil, false_iff, not_and]
    intro h1
    rintro ⟨a, b, ha, hb, hab⟩
    rw [show (([] : List (A × C)).map Prod.fst) = [] from rfl,
      List.get?_eq_none.mpr (Nat.zero_le i)] at hb
    cases hb
  | cons p rest =>
    rw [show find_splits (p :: rest) = find_splits_go p rest 0 from rfl,
      find_splits_go_mem rest p 0 i]
    simp only [Nat.zero_add, Nat.sub_zero]

theorem find_splits_go_card [LinearOrder A] :
    ∀ (rest : List (A × C)) (p : A × C) (n : Nat),
      List.Chain' (· ≤ ·) ((p :: rest).map Prod.fst) →
      (find_splits_go p rest n).length + 1
        = ((p :: rest).map Prod.fst).toFinset.card := by
  intro rest
  induction rest with
  | nil => intro p n _; simp [find_splits_go]
  | cons q rest' ih =>
    intro p n hch
    have hch' : List.Chain' (· ≤ ·) ((q :: rest').map Prod.fst) := by
      have := hch.tail
      simpa using this
    have hhead : p.1 ≤ q.1 := by
      rw [List.map_cons, List.map_cons, List.chain'_cons] at hch
      exact hch.1
    have hq : ∀ x ∈ rest'.map Prod.fst, q.1 ≤ x := by
      have hp := List.chain'_iff_pairwise.mp hch'
      rw [List.map_cons] at hp
      intro x hx
      exact List.rel_of_pairwise_cons hp hx
    simp only [find_splits_go]
    by_cases h : p.1 < q.1
    · rw [if_pos h, List.length_cons, ih q (n + 1) hch']
      have hnot : p.1 ∉ ((q :: rest').map Prod.fst).toFinset := by
        rw [List.mem_toFinset, List.map_cons, List.mem_cons]
        rintro (heq | hmem)
        · exact absurd heq (ne_of_lt h)
        · exact absurd (lt_of_lt_of_le h (hq _ hmem)) (lt_irrefl p.1)
      rw [show ((p :: q :: rest').map Prod.fst).toFinset
          = insert p.1 ((q :: rest').map Prod.fst).toFinset from by
            simp [List.toFinset_cons],
        Finset.card_insert_of_not_mem hnot]
    · rw [if_neg h, ih q (n + 1) hch']
      have hpq : p.1 = q.1 := le_antisymm hhead (le_of_not_lt h)
      rw [show ((p :: q :: rest').map Prod.fst).toFinset
          = insert p.1 ((q :: rest').map Prod.fst).toFinset from by
            simp [List.toFinset_cons],
        Finset.insert_eq_self.mpr (by
          rw [List.mem_toFinset, hpq, List.map_cons]
          exact List.mem_cons_self _ _)]

theorem find_splits_card [LinearOrder A] {data : List (A × C)}
    (hch : List.Chain' (· ≤ ·) (data.map Prod.fst)) (hne : data ≠ []) :
    (find_splits data).length + 1 = (data.map Prod.fst).toFinset.card := by
  cases data with
  | nil => cases hne rfl
  | cons p rest => exact find_splits_go_card rest p 0 hch

/-- Claim C4: the split detector always returns a strictly ascending index
list; over a sorted sequence an index is returned exactly when it is at
least 1 and the value there differs from its immediate predecessor; and
over non-empty sorted data the number of splits is exactly the number of
distinct attribute values minus one (so one distinct value gives an empty
output). -/
theorem claim_C4 : ∀ (A C : Type) [LinearOrder A] (data : List (A × C)),
    List.Chain' (· < ·) (find_splits data)
    ∧ (List.Chain' (· ≤ ·) (data.map Prod.fst) →
        ∀ i, i ∈ find_splits data ↔
          (1 ≤ i ∧ ∃ a b, (data.map Prod.fst).get? (i - 1) = some a
            ∧ (data.map Prod.fst).get? i = some b ∧ a ≠ b))
    ∧ (List.Chain' (· ≤ ·) (data.map Prod.fst) → data ≠ [] →
        (find_splits data).length + 1 = (data.map Prod.fst).toFinset.card) := by
  intro A C _ data
  refine ⟨find_splits_chain data, ?_, fun hch hne => find_splits_card hch hne⟩
  intro hch i
  rw [find_splits_mem data i]
  constructor
  · rintro ⟨h1, a, b, ha, hb, hab⟩
    exact ⟨h1, a, b, ha, hb, ne_of_lt hab⟩
  · rintro ⟨h1, a, b, ha, hb, hne⟩
    refine ⟨h1, a, b, ha, hb, lt_of_le_of_ne ?_ hne⟩
    obtain ⟨hlen1, hget1⟩ := List.get?_eq_some.mp ha
    have hb' : (data.map Prod.fst).get? (i - 1 + 1) = some b := by
      rw [show i - 1 + 1 = i from by omega]
      exact hb
    obtain ⟨hlen2, hget2⟩ := List.get?_eq_some.mp hb'
    have hadj := List.chain'_iff_get.mp hch (i - 1) (by omega)
    calc a = (data.map Prod.fst).get ⟨i - 1, hlen1⟩ := hget1.symm
      _ ≤ (data.map Prod.fst).get ⟨i - 1 + 1, hlen2⟩ := hadj
      _ = b := hget2

/-- Witness for claim C4: the distinct-count conjunct on two points with
two distinct values. -/
theorem claim_C4_witness :
    (find_splits [((1 : Int), "a"), (2, "b")]).length + 1
      = (([((1 : Int), "a"), (2, "b")]).map Prod.fst).toFinset.card :=
  (claim_C4 Int String [((1 : Int), "a"), (2, "b")]).2.2
    (by norm_num [List.chain'_cons, List.chain'_singleton]) (by decide)

end SplitDetectorLemmas

section TrimLemmas

variable [DecidableEq C]

theorem trim_cond_eq (si head small : Nat) (data : List (A × C))
    (next : Option Nat) :
    (no_dominant_class si head small data
        || next_split_same_class si head data next)
      = (noDominantSpec small ((segSlice data (si, head)).map Prod.snd)
          || sameNextSpec data si head next) := by
  have h1 : no_dominant_class si head small data
      = noDominantSpec small ((segSlice data (si, head)).map Prod.snd) := by
    rw [Bool.eq_iff_iff, no_dominant_class_iff]
    simp [noDominantSpec, List.all_eq_true]
  rw [h1]
  cases next with
  | some nxt =>
    have h2 : next_split_same_class si head data (some nxt)
        = sameNextSpec data si head (some nxt) := by
      simp only [next_split_same_class, sameNextSpec, Option.some_bind]
      exact decide_eq_decide.mpr eq_comm
    rw [h2]
  | none =>
    by_cases hmfc : most_frequest_class data si head = none
    · have hslice : segSlice data (si, head) = [] := by
        rw [most_frequest_eq_most_frequent] at hmfc
        exact (most_frequent_class_eq_none_iff data si head).mp hmfc
      have hnd : noDominantSpec small ((segSlice data (si, head)).map Prod.snd)
          = true := by
        rw [hslice]
        rfl
      have hns : next_split_same_class si head data none = true := by
        simp [next_split_same_class, hmfc]
      rw [hns, hnd]
      rfl
    · have hns : next_split_same_class si head data none = false := by
        simp only [next_split_same_class, Option.none_bind, decide_eq_false_iff_not]
        exact fun h => hmfc h.symm
      rw [hns]
      rfl

theorem trim_splits0_eq_fold :
    ∀ (splits : List Nat) (small : Nat) (data : List (A × C))
      (keep : List Nat) (si : Nat),
      trim_splits0 splits small data keep si
        = keep ++ trimSplitsSpecFold small data splits si := by
  intro splits
  induction splits with
  | nil => intro small data keep si; simp [trim_splits0, trimSplitsSpecFold]
  | cons head tail ih =>
    intro small data keep si
    simp only [trim_splits0, trimSplitsSpecFold]
    rw [trim_cond_eq si head small data tail.head?]
    by_cases h : (noDominantSpec small ((segSlice data (si, head)).map Prod.snd)
        || sameNextSpec data si head tail.head?) = true
    · rw [if_pos h, if_pos h]
      exact ih small data keep si
    · rw [if_neg h, if_neg h]
      rw [ih small data (keep ++ [head]) head]
      simp

theorem trimSplitsSpecFold_sublist :
    ∀ (splits : List Nat) (small : Nat) (data : List (A × C)) (si : Nat),
      (trimSplitsSpecFold small data splits si).Sublist splits := by
  intro splits
  induction splits with
  | nil => intro small data si; simp [trimSplitsSpecFold]
  | cons head tail ih =>
    intro small data si
    simp only [trimSplitsSpecFold]
    by_cases h : (noDominantSpec small ((segSlice data (si, head)).map Prod.snd)
        || sameNextSpec data si head tail.head?) = true
    · rw [if_pos h]
      exact (ih small data si).cons head
    · rw [if_neg h]
      exact (ih small data head).cons₂ head

theorem trim_splits_eq_fold (splits : List Nat) (small : Nat)
    (data : List (A × C)) :
    trim_splits splits small data = trimSplitsSpecFold small data splits 0 := by
  rw [trim_splits, trim_splits0_eq_fold, List.nil_append]

theorem trim_splits_sublist (splits : List Nat) (small : Nat)
    (data : List (A × C)) :
    (trim_splits splits small data).Sublist splits := by
  rw [trim_splits_eq_fold]
  exact trimSplitsSpecFold_sublist splits small data 0

end TrimLemmas

section TrimClaims

/-- Claim C1: over any ascending in-range candidate list, trim_splits is
exactly the left fold described by the spec — starting at start_index 0,
dropping a head when no class of [start_index, head) occurs more than
small times or when the majority class of [start_index, head) equals that
of [head, next_candidate) (false without a next candidate), keeping it
and advancing start_index otherwise — and the output is a subsequence of
the input candidates. -/
theorem claim_C1 : ∀ (A C : Type) [DecidableEq C] (splits : List Nat)
    (small : Nat) (data : List (A × C)),
    List.Chain' (· ≤ ·) splits → (∀ s ∈ splits, s ≤ data.length) →
    (trim_splits splits small data = trimSplitsSpecFold small data splits 0
      ∧ (trim_splits splits small data).Sublist splits) := by
  intro A C _ splits small data _ _
  exact ⟨trim_splits_eq_fold splits small data,
    trim_splits_sublist splits small data⟩

/-- Witness for claim C1 on one candidate over two points. -/
theorem claim_C1_witness :
    trim_splits [1] 0 [((1 : Int), "a"), (2, "b")]
        = trimSplitsSpecFold 0 [((1 : Int), "a"), (2, "b")] [1] 0
      ∧ (trim_splits [1] 0 [((1 : Int), "a"), (2, "b")]).Sublist [1] :=
  claim_C1 Int String [1] 0 [((1 : Int), "a"), (2, "b")]
    (List.chain'_singleton 1) (by decide)

end TrimClaims

section MergeLemmas

theorem getLast_snoc (l : List (Interval A C)) (a : Interval A C) :
    (l ++ [a]).getLast (by simp) = a := by
  rw [List.getLast_append]
  simp

theorem getLast_cons_snoc (x a : Interval A C) (l : List (Interval A C)) :
    (x :: (l ++ [a])).getLast (by simp) = a := by
  rw [List.getLast_cons (by simp : l ++ [a] ≠ []), getLast_snoc]

theorem mkInterval_eta (i : Interval A C) :
    mkInterval i.lowerBound i.upperBound i.cls = i := by
  cases i <;> rfl

theorem lowerBound_mkInterval (lb ub : Option A) (c : C) :
    (mkInterval lb ub c).lowerBound = lb := by
  cases lb <;> cases ub <;> rfl

theorem upperBound_mkInterval (lb ub : Option A) (c : C) :
    (mkInterval lb ub c).upperBound = ub := by
  cases lb <;> cases ub <;> rfl

theorem cls_mkInterval (lb ub : Option A) (c : C) :
    (mkInterval lb ub c).cls = c := by
  cases lb <;> cases ub <;> rfl

theorem mergeRun_ne_nil [DecidableEq C] :
    ∀ (l : List (Interval A C)) (acc : Interval A C), mergeRun acc l ≠ [] := by
  intro l
  induction l with
  | nil => intro acc; simp [mergeRun]
  | cons i rest ih =>
    intro acc
    simp only [mergeRun]
    by_cases h : i.cls = acc.cls
    · rw [if_pos h]
      exact ih _
    · rw [if_neg h]
      simp

theorem merge_ne_nil [DecidableEq C] {l : List (Interval A C)} (h : l ≠ []) :
    merge_neighbours_with_same_class l ≠ [] := by
  cases l with
  | nil => cases h rfl
  | cons i rest => exact mergeRun_ne_nil rest i

theorem mergeRun_const [DecidableEq C] {c0 : C} :
    ∀ (l : List (Interval A C)) (acc : Interval A C), acc.cls = c0 →
      (∀ i ∈ l, i.cls = c0) →
      mergeRun acc l
        = [mkInterval acc.lowerBound
            ((acc :: l).getLast (by simp)).upperBound c0] := by
  intro l
  induction l with
  | nil =>
    intro acc hacc _
    simp only [mergeRun, List.getLast_singleton]
    rw [← hacc, mkInterval_eta]
  | cons i rest ih =>
    intro acc hacc hall
    have hic : i.cls = c0 := hall i (by simp)
    simp only [mergeRun]
    rw [if_pos (by rw [hic, hacc])]
    rw [ih (mkInterval acc.lowerBound i.upperBound acc.cls)
      (by rw [cls_mkInterval, hacc])
      (fun j hj => hall j (by simp [hj]))]
    rw [lowerBound_mkInterval, hacc]
    cases rest with
    | nil =>
      simp [List.getLast_singleton, upperBound_mkInterval, List.getLast_cons]
    | cons j rest' =>
      simp [List.getLast_cons]

theorem merge_const [DecidableEq C] {l : List (Interval A C)} {c0 : C}
    (hne : l ≠ []) (hall : ∀ i ∈ l, i.cls = c0)
    (hlb : (l.head hne).lowerBound = none)
    (hub : (l.getLast hne).upperBound = none) :
    merge_neighbours_with_same_class l = [Interval.Infinite c0] := by
  cases l with
  | nil => cases hne rfl
  | cons i rest =>
    simp only [merge_neighbours_with_same_class]
    rw [mergeRun_const rest i (hall i (by simp))
      (fun j hj => hall j (by simp [hj]))]
    have h1 : i.lowerBound = none := by
      simpa [List.head_cons] using hlb
    have h2 : ((i :: rest).getLast (by simp)).upperBound = none := hub
    rw [h1, h2]
    rfl

end MergeLemmas

section PipelineLemmas

theorem zip_ne_nil {attr : List A} {classes : List C}
    (ha : attr ≠ []) (hc : classes ≠ []) : attr.zip classes ≠ [] := by
  intro h
  have h2 := List.length_zip attr classes
  rw [h] at h2
  simp only [List.length_nil] at h2
  have ha' := List.length_pos.mpr ha
  have hc' := List.length_pos.mpr hc
  omega

theorem intervals_from_splits_ne_nil [DecidableEq C] {splits : List Nat}
    {data : List (A × C)} {l : List (Interval A C)}
    (h : intervals_from_splits splits data = some l) : l ≠ [] := by
  match splits with
  | [] =>
    cases hm : most_frequent_class data 0 data.length with
    | none => simp [intervals_from_splits, hm] at h
    | some c =>
      simp [intervals_from_splits, hm] at h
      subst h
      simp
  | [s] =>
    cases hl : lowerInterval data s with
    | none => simp [intervals_from_splits, hl] at h
    | some li =>
      cases hu : upperInterval data s with
      | none => simp [intervals_from_splits, hl, hu] at h
      | some ui =>
        simp [intervals_from_splits, hl, hu] at h
        subst h
        simp
  | s0 :: s1 :: rest =>
    cases hl : lowerInterval data s0 with
    | none => simp [intervals_from_splits, hl] at h
    | some li =>
      cases hr : rangesOf data ((s1, s0) :: rest.zip (s1 :: rest)) with
      | none => simp [intervals_from_splits, hl, hr] at h
      | some mids =>
        cases hu : upperInterval data ((s1 :: rest).getLast (by simp)) with
        | none => simp [intervals_from_splits, hl, hr, hu] at h
        | some ui =>
          simp [intervals_from_splits, hl, hr, hu] at h
          subst h
          simp

theorem pipeline_valid [LinearOrder A] [DecidableEq C] {attr : List A}
    {classes : List C} (small : Nat) (hzip : attr.zip classes ≠ []) :
    ∃ bl, intervals_from_splits
        (trim_splits
          (find_splits (List.insertionSort (fun p q => p.1 ≤ q.1) (attr.zip classes)))
          small (List.insertionSort (fun p q => p.1 ≤ q.1) (attr.zip classes)))
        (List.insertionSort (fun p q => p.1 ≤ q.1) (attr.zip classes)) = some bl
      ∧ find_intervals attr classes small
          = some (merge_neighbours_with_same_class bl) := by
  set S := List.insertionSort (fun p q => p.1 ≤ q.1) (attr.zip classes) with hS
  have hSne : S ≠ [] := by
    intro h
    apply hzip
    have hperm := List.perm_insertionSort (fun p q => p.1 ≤ q.1) (attr.zip classes)
    rw [← hS, h] at hperm
    exact hperm.symm.eq_nil
  have hchain : List.Chain' (· < ·) (trim_splits (find_splits S) small S) :=
    (find_splits_chain S).sublist (trim_splits_sublist _ _ _)
  have hbound : ∀ s ∈ trim_splits (find_splits S) small S,
      0 < s ∧ s < S.length := by
    intro s hs
    have h2 := find_splits_bounds s ((trim_splits_sublist _ _ _).subset hs)
    exact ⟨h2.1, h2.2⟩
  obtain ⟨bl, hbl⟩ := intervals_from_splits_isSome_of_segments
    (segments_valid hchain hbound hSne)
  refine ⟨bl, hbl, ?_⟩
  simp only [find_intervals]
  rw [← hS, hbl]
  rfl

end PipelineLemmas

section ConstClassLemmas

theorem majD_const [DecidableEq C] [Inhabited C] {data : List (A × C)}
    {c0 : C} {s u : Nat} (hne : segSlice data (s, u) ≠ [])
    (hall : ∀ p ∈ data, p.2 = c0) : majD data s u = c0 := by
  have hsub : ∀ p ∈ segSlice data (s, u), p.2 = c0 := by
    intro p hp
    exact hall p (List.mem_of_mem_drop (List.mem_of_mem_take hp))
  rw [majD, most_frequent_class_const hne hsub]
  rfl

theorem merge_spec_const [DecidableEq C] [Inhabited A] [Inhabited C]
    {data : List (A × C)} {c0 : C} (splits : List Nat)
    (hseg : ∀ p ∈ builderSegments splits data.length, segSlice data p ≠ [])
    (hall : ∀ p ∈ data, p.2 = c0) :
    merge_neighbours_with_same_class (intervalsSpecOf splits data)
      = [Interval.Infinite c0] := by
  match splits with
  | [] =>
    have h0 := hseg (0, data.length) (by simp [builderSegments])
    rw [show intervalsSpecOf [] data
        = [Interval.Infinite (majD data 0 data.length)] from rfl,
      majD_const h0 hall]
    rfl
  | [s] =>
    have h1 := hseg (0, s) (by simp [builderSegments])
    have h2 := hseg (s, data.length) (by simp [builderSegments])
    rw [show intervalsSpecOf [s] data
        = [Interval.Lower (valD data s) (majD data 0 s),
           Interval.Upper (valD data s) (majD data s data.length)] from rfl,
      majD_const h1 hall, majD_const h2 hall]
    simp [merge_neighbours_with_same_class, mergeRun, Interval.cls,
      Interval.lowerBound, Interval.upperBound, mkInterval]
  | s0 :: s1 :: rest =>
    have hshape : intervalsSpecOf (s0 :: s1 :: rest) data
        = Interval.Lower (valD data s0) (majD data 0 s0)
          :: (((s1 :: rest).zip (s0 :: s1 :: rest)).map fun pc =>
              Interval.Range (valD data pc.2) (valD data pc.1)
                (majD data pc.2 pc.1))
          ++ [Interval.Upper (valD data ((s1 :: rest).getLast (by simp)))
              (majD data ((s1 :: rest).getLast (by simp)) data.length)] := rfl
    rw [hshape]
    refine merge_const (by simp) ?_ ?_ ?_
    · intro i hi
      rcases List.mem_cons.mp hi with rfl | hi'
      · have h0 := hseg (0, s0) (head_mem_segments s0 s1 rest data.length)
        simp [Interval.cls, majD_const h0 hall]
      · rcases List.mem_append.mp hi' with hmap | hlast
        · obtain ⟨pc, hpc, rfl⟩ := List.mem_map.mp hmap
          have hm := hseg _ (mid_subset_segments (List.mem_map_of_mem _ hpc))
          simp [Interval.cls, majD_const hm hall]
        · rw [List.mem_singleton] at hlast
          subst hlast
          have hm := hseg _ (last_mem_segments s0 s1 rest data.length)
          simp [Interval.cls, majD_const hm hall]
    · simp [List.head_cons, Interval.lowerBound]
    · simp [getLast_cons_snoc, Interval.upperBound]

theorem find_intervals_const_class [LinearOrder A] [DecidableEq C]
    {attr : List A} {classes : List C} {small : Nat} {c0 : C}
    (hzip : attr.zip classes ≠ []) (hall : ∀ c ∈ classes, c = c0) :
    find_intervals attr classes small = some [Interval.Infinite c0] := by
  set S := List.insertionSort (fun p q => p.1 ≤ q.1) (attr.zip classes) with hS
  have hSne : S ≠ [] := by
    intro h
    apply hzip
    have hperm := List.perm_insertionSort (fun p q => p.1 ≤ q.1) (attr.zip classes)
    rw [← hS, h] at hperm
    exact hperm.symm.eq_nil
  have hSall : ∀ p ∈ S, p.2 = c0 := by
    intro p hp
    have hmem : p ∈ attr.zip classes :=
      (List.perm_insertionSort (fun p q => p.1 ≤ q.1) (attr.zip classes)).subset
        (by rw [← hS]; exact hp)
    exact hall p.2 (List.of_mem_zip hmem).2
  have hchain : List.Chain' (· < ·) (trim_splits (find_splits S) small S) :=
    (find_splits_chain S).sublist (trim_splits_sublist _ _ _)
  have hbound : ∀ s ∈ trim_splits (find_splits S) small S,
      0 < s ∧ s < S.length := by
    intro s hs
    have h2 := find_splits_bounds s ((trim_splits_sublist _ _ _).subset hs)
    exact ⟨h2.1, h2.2⟩
  have hseg := segments_valid hchain hbound hSne
  obtain ⟨pair, _⟩ := List.exists_mem_of_ne_nil S hSne
  haveI : Inhabited A := ⟨pair.1⟩
  haveI : Inhabited C := ⟨pair.2⟩
  have heq := intervals_from_splits_eq_spec (trim_splits (find_splits S) small S) S hseg
  simp only [find_intervals]
  rw [← hS, heq]
  rw [show (some (intervalsSpecOf (trim_splits (find_splits S) small S) S)).map
      merge_neighbours_with_same_class
    = some (merge_neighbours_with_same_class
        (intervalsSpecOf (trim_splits (find_splits S) small S) S)) from rfl]
  rw [merge_spec_const _ hseg hSall]

end ConstClassLemmas

section PipelineClaims

/-- Claim C5 (amended): for every pair of non-empty input sequences and
every small threshold, find_intervals succeeds and the interval list
contains at least one interval; when all class labels coincide the result
is exactly one Infinite interval with that class.  (On empty input the
code panics, see the counterexample.) -/
theorem claim_C5 : ∀ (A C : Type) [LinearOrder A] [DecidableEq C]
    (attr : List A) (classes : List C) (small : Nat),
    attr ≠ [] → classes ≠ [] →
    ((∃ l, find_intervals attr classes small = some l ∧ l ≠ [])
      ∧ ∀ c0, (∀ c ∈ classes, c = c0) →
          find_intervals attr classes small = some [Interval.Infinite c0]) := by
  intro A C _ _ attr classes small hna hnc
  have hzip : attr.zip classes ≠ [] := zip_ne_nil hna hnc
  constructor
  · obtain ⟨bl, hbl, hfi⟩ := pipeline_valid small hzip
    exact ⟨_, hfi, merge_ne_nil (intervals_from_splits_ne_nil hbl)⟩
  · intro c0 hall
    exact find_intervals_const_class hzip hall

/-- Witness for claim C5 on a two-point single-class input, where the
result is the single Infinite interval. -/
theorem claim_C5_witness :
    (∃ l, find_intervals [(1 : Int), 2] ["a", "a"] 0 = some l ∧ l ≠ [])
      ∧ ∀ c0, (∀ c ∈ ["a", "a"], c = c0) →
          find_intervals [(1 : Int), 2] ["a", "a"] 0
            = some [Interval.Infinite c0] :=
  claim_C5 Int String [1, 2] ["a", "a"] 0 (by decide) (by decide)

/-- Claim C7: trimming preserves the well-formedness the detector
guarantees — the trimmed list is again strictly ascending with every
index at least 1 and below the data length — and consequently the full
pipeline never reaches the fatal empty-segment failure on non-empty
equal-length inputs. -/
theorem claim_C7 :
    (∀ (A C : Type) [DecidableEq C] (splits : List Nat) (small : Nat)
      (data : List (A × C)),
      List.Chain' (· < ·) splits → (∀ s ∈ splits, 1 ≤ s ∧ s < data.length) →
      (List.Chain' (· < ·) (trim_splits splits small data)
        ∧ ∀ s ∈ trim_splits splits small data, 1 ≤ s ∧ s < data.length))
    ∧ (∀ (A C : Type) [LinearOrder A] [DecidableEq C] (attr : List A)
        (classes : List C) (small : Nat),
        attr ≠ [] → attr.length = classes.length →
        (find_intervals attr classes small).isSome) := by
  constructor
  · intro A C _ splits small data hch hb
    refine ⟨hch.sublist (trim_splits_sublist _ _ _), ?_⟩
    intro s hs
    exact hb s ((trim_splits_sublist _ _ _).subset hs)
  · intro A C _ _ attr classes small hne hlen
    have hnc : classes ≠ [] := by
      intro h
      rw [h, List.length_nil] at hlen
      exact hne (List.length_eq_zero.mp hlen)
    obtain ⟨bl, _, hfi⟩ := pipeline_valid small (zip_ne_nil hne hnc)
    rw [hfi]
    rfl

/-- Witness for claim C7: both conjuncts at concrete inputs. -/
theorem claim_C7_witness :
    (List.Chain' (· < ·) (trim_splits [1] 0 [((1 : Int), "a"), (2, "b")])
        ∧ ∀ s ∈ trim_splits [1] 0 [((1 : Int), "a"), (2, "b")],
            1 ≤ s ∧ s < ([((1 : Int), "a"), (2, "b")] : List (Int × String)).length)
      ∧ (find_intervals [(1 : Int), 2] ["a", "b"] 0).isSome :=
  ⟨claim_C7.1 Int String [1] 0 [((1 : Int), "a"), (2, "b")]
      (List.chain'_singleton 1) (by decide),
   claim_C7.2 Int String [1, 2] ["a", "b"] 0 (by decide) rfl⟩

/-- Claim C8 (amended): no length-mismatch error exists — running on
unequal-length inputs is identical to running on the inputs truncated to
the shorter length, and when the shorter sequence is non-empty the
computation succeeds.  (With an empty shorter sequence the code panics,
see the counterexample.) -/
theorem claim_C8 : ∀ (A C : Type) [LinearOrder A] [DecidableEq C]
    (attr : List A) (classes : List C) (small : Nat),
    (find_intervals attr classes small
      = find_intervals (attr.take (attr.length ⊓ classes.length))
          (classes.take (attr.length ⊓ classes.length)) small)
    ∧ (attr ≠ [] → classes ≠ [] →
        (find_intervals attr classes small).isSome) := by
  intro A C _ _ attr classes small
  constructor
  · simp only [find_intervals]
    rw [← List.zip_eq_zip_take_min]
  · intro hna hnc
    obtain ⟨bl, _, hfi⟩ := pipeline_valid small (zip_ne_nil hna hnc)
    rw [hfi]
    rfl

/-- Witness for claim C8 at unequal-length inputs [1,2,3] and ["a","b"]. -/
theorem claim_C8_witness :
    (find_intervals [(1 : Int), 2, 3] ["a", "b"] 1
      = find_intervals ([(1 : Int), 2, 3].take
            (([(1 : Int), 2, 3] : List Int).length ⊓ (["a", "b"] : List String).length))
          ((["a", "b"] : List String).take
            (([(1 : Int), 2, 3] : List Int).length ⊓ (["a", "b"] : List String).length)) 1)
    ∧ (find_intervals [(1 : Int), 2, 3] ["a", "b"] 1).isSome :=
  ⟨(claim_C8 Int String [1, 2, 3] ["a", "b"] 1).1,
   (claim_C8 Int String [1, 2, 3] ["a", "b"] 1).2 (by decide) (by decide)⟩

end PipelineClaims

end OneRQuantize
